import Mathlib

/-!
Shallow embedding of `src/vtt-translate.py` (a VTT subtitle translation
script) and verification of its specification's claims.

Strings are modelled as `List Char` (`Str`), so that Python's string
operations (`strip`, `split`, `replace`, regex prefix removal, `in`) can be
given executable, proof-friendly definitions.  The remote Gemini call
`model.generate_content` is the injected translation function
`tf : Str → Option Str`; `none` models the call raising an exception, and
`some responseText` models a successful response (`response.text`).
-/

abbrev Str := List Char

/-- Python whitespace for `str.strip()` and the regex class `\s`
(the ASCII part, which is all the script's inputs use). -/
def isSpace (c : Char) : Bool :=
  c = ' ' || c = '\t' || c = '\n' || c = '\r' || c = '\x0b' || c = '\x0c'

/-- Python `s.lstrip()`. -/
def lstrip (s : Str) : Str := s.dropWhile isSpace

/-- Python `s.rstrip()`. -/
def rstrip (s : Str) : Str := (s.reverse.dropWhile isSpace).reverse

/-- Python `s.strip()`. -/
def strip (s : Str) : Str := rstrip (lstrip s)

/-- Python `s.split(sep)` for a one-character separator (used as
`block.strip().split('\n')` and, for path handling, splitting on `/`). -/
def splitOnChar (sep : Char) : Str → List Str
  | [] => [[]]
  | c :: rest =>
    if c = sep then [] :: splitOnChar sep rest
    else
      match splitOnChar sep rest with
      | [] => [[c]]
      | h :: t => (c :: h) :: t

/-- `startsWith pat s`: does `s` begin with `pat`?  (Python `s.startswith(pat)`.) -/
def startsWith : Str → Str → Bool
  | [], _ => true
  | _ :: _, [] => false
  | p :: ps, c :: cs => p = c && startsWith ps cs

/-- `endsWith pat s`: does `s` end with `pat`?  (Python `s.endswith(pat)`.) -/
def endsWith (pat s : Str) : Bool := startsWith pat.reverse s.reverse

/-- Python substring membership `pat in s`. -/
def containsSub (pat : Str) : Str → Bool
  | [] => startsWith pat []
  | s@(_ :: rest) => startsWith pat s || containsSub pat rest

/-- The literal arrow separator `-->` of a VTT timestamp line. -/
def arrow : Str := "-->".toList

/-- Greedy match of the regex tail `\s*\n` against the front of the string
(the part of the block separator `\n\s*\n` after its first newline, as
Python's backtracking regex engine matches it: the longest whitespace run
ending in a newline).  Returns the number of characters consumed. -/
def matchWsNl : Str → Option Nat
  | [] => none
  | c :: rest =>
    if isSpace c then
      match matchWsNl rest with
      | some n => some (n + 1)
      | none => if c = '\n' then some 1 else none
    else none

/-- Scan for `re.split(r'\n\s*\n', content)`: `acc` is the current block read
so far (reversed), `skip` the number of separator characters still to be
consumed after a match. -/
def splitBlocksAux : Str → Nat → Str → List Str
  | acc, _, [] => [acc.reverse]
  | acc, skip + 1, _ :: rest => splitBlocksAux acc skip rest
  | acc, 0, c :: rest =>
    if c = '\n' then
      match matchWsNl rest with
      | some n => acc.reverse :: splitBlocksAux [] n rest
      | none => splitBlocksAux (c :: acc) 0 rest
    else splitBlocksAux (c :: acc) 0 rest

/-- Python `re.split(r'\n\s*\n', s)`. -/
def splitBlocks (s : Str) : List Str := splitBlocksAux [] 0 s

/-- A subtitle entry as the script builds it: the dict
`{'timestamp': ..., 'text': ...}`. -/
structure Cue where
  timestamp : Str
  text : Str
deriving DecidableEq, Repr

/-- Python `'\n'.join(lines)`. -/
def joinNl : List Str → Str
  | [] => []
  | [l] => l
  | l :: l' :: ls => l ++ '\n' :: joinNl (l' :: ls)

/-- The body of the block loop of `parse_vtt_file` (lines 221-241): skip a
blank block, split it into lines, and read a cue out of it if line 0 (or,
after an identifier line, line 1) contains the arrow separator. -/
def parseBlock (block : Str) : Option Cue :=
  if strip block = [] then none
  else
    match splitOnChar '\n' (strip block) with
    | l0 :: l1 :: rest =>
      if containsSub arrow l0 then some ⟨l0, joinNl (l1 :: rest)⟩
      else
        match rest with
        | l2 :: rest' =>
          if containsSub arrow l1 then some ⟨l1, joinNl (l2 :: rest')⟩
          else none
        | [] => none
    | _ => none

def webvttStr : Str := "WEBVTT".toList

/-- `parse_vtt_file` (lines 206-243), with the file's reading abstracted:
it takes the file's decoded content.  Returns `(header, subtitles)`:
`blocks[0]` is the header when it starts with `WEBVTT` (else the default
`WEBVTT`), and the cue blocks are `blocks[1:]` respectively `blocks`.
(`re.split` always returns at least one element, so `blocks.headD []`
models `blocks[0]` exactly.) -/
def parse_vtt_file (content : Str) : Str × List Cue :=
  let blocks := splitBlocks (strip content)
  let isW := startsWith webvttStr (blocks.headD [])
  ((if isW then blocks.headD [] else webvttStr),
    (if isW then blocks.tail else blocks).filterMap parseBlock)

/-- The fixed prompt preamble of `translate_text_batch`. -/
def promptPreamble : Str :=
  ("Translate the following English subtitle texts to Korean. \nKeep the translations natural and appropriate for subtitles.\nMaintain the same number of lines as the input.\nReturn only the translated texts, one per line, in the same order:\n\n").toList

/-- The full prompt: preamble plus one numbered line per batch text
(the loop `for i, text in enumerate(texts): prompt += f"..."`). -/
def buildPrompt (texts : List Str) : Str :=
  promptPreamble ++
    (texts.enum.map
      (fun p => (toString (p.1 + 1)).toList ++ ". ".toList ++ p.2 ++ ['\n'])).flatten

/-- Python `re.sub(r'^\d+\.\s*', '', s)`: if `s` starts with one or more
digits followed by a period, remove them and any following whitespace;
otherwise `s` unchanged. -/
def stripNumbering (s : Str) : Str :=
  let ds := s.takeWhile (fun c => c.isDigit)
  if ds = [] then s
  else
    match s.drop ds.length with
    | '.' :: rest => rest.dropWhile isSpace
    | _ => s

/-- One response line's cleanup in `translate_text_batch` (line 271):
`re.sub(r'^\d+\.\s*', '', line.strip())`. -/
def cleanLine (line : Str) : Str := stripNumbering (strip line)

/-- `translate_text_batch` (lines 245-282).  `tf` is the injected
translation call; `tf ... = none` models `model.generate_content` (or any
step of the `try` block) raising, in which case the original `texts` are
returned unchanged. -/
def translate_text_batch (tf : Str → Option Str) (texts : List Str) : List Str :=
  if texts = [] then []
  else
    match tf (buildPrompt texts) with
    | some responseText =>
      let translated_lines := splitOnChar '\n' (strip responseText)
      let cleaned_translations :=
        (translated_lines.map cleanLine).filter (fun l => !l.isEmpty)
      cleaned_translations.take texts.length
    | none => texts

def batch_size : Nat := 10

/-- The body of one iteration of the batch loop of `translate_subtitles`
(lines 296-316): translate the batch's texts and pair result line `j` with
cue `j` (`translated_texts[j] if j < len(translated_texts) else sub['text']`,
over `for j, sub in enumerate(batch)`). -/
def processBatch (tf : Str → Option Str) (batch : List Cue) : List Cue :=
  let texts := batch.map Cue.text
  let translated_texts := translate_text_batch tf texts
  batch.enum.map (fun p => ⟨p.2.timestamp, translated_texts.getD p.1 p.2.text⟩)

/-- `translate_subtitles` (lines 284-318): the loop
`for i in range(0, len(subtitles), batch_size): batch = subtitles[i:i+batch_size]`,
written as structural slicing (`take`/`drop`) over the remaining cues.
The spinner start/succeed calls are terminal output only; the
`try/except ...: raise` around `translate_text_batch` is unreachable for
translation errors, because `translate_text_batch` catches every exception
of its own `try` block internally (lines 277-282). -/
def translate_subtitles (tf : Str → Option Str) : List Cue → List Cue
  | [] => []
  | c :: rest =>
    processBatch tf ((c :: rest).take batch_size) ++
      translate_subtitles tf ((c :: rest).drop batch_size)
termination_by subs => subs.length
decreasing_by
  simp only [batch_size, List.length_drop, List.length_cons]
  omega

/-- The batch partition `translate_subtitles` iterates over: the slices
`subtitles[i:i+batch_size]` for `i in range(0, len(subtitles), batch_size)`,
in order. -/
def batches : List Cue → List (List Cue)
  | [] => []
  | c :: rest => (c :: rest).take batch_size :: batches ((c :: rest).drop batch_size)
termination_by subs => subs.length
decreasing_by
  simp only [batch_size, List.length_drop, List.length_cons]
  omega

/-- `write_vtt_file` (lines 320-329), with the file's writing abstracted:
returns the text written (`header + '\n\n'` then, per cue,
`timestamp + '\n' + text + '\n\n'`). -/
def write_vtt_file (header : Str) (subtitles : List Cue) : Str :=
  header ++ '\n' :: '\n' :: [] ++
    (subtitles.map (fun s => s.timestamp ++ '\n' :: (s.text ++ '\n' :: '\n' :: []))).flatten

/-- `pathlib.PurePath` final component (`Path(p).name`): the last path
segment, ignoring empty and `.` segments. -/
def basenameOf (p : Str) : Str :=
  ((splitOnChar '/' p).filter (fun seg => decide (seg ≠ [] ∧ seg ≠ ['.']))).getLastD []

/-- The index of the last `.` of a name (Python `name.rfind('.')`), `none`
when there is no dot. -/
def lastDotIndex (name : Str) : Option Nat :=
  ((name.enum.filter (fun p => decide (p.2 = '.'))).getLast?).map Prod.fst

/-- `Path(name).stem` on a bare final component: cut at the last dot when
that dot is neither leading nor trailing. -/
def stemAux (name : Str) : Str :=
  match lastDotIndex name with
  | some i => if 0 < i ∧ i < name.length - 1 then name.take i else name
  | none => name

/-- `Path(p).stem`. -/
def stemOf (p : Str) : Str := stemAux (basenameOf p)

/-- Python `str.replace(pat, repl)` for a nonempty `pat` (all occurrences,
scanned left to right without overlap).  The counter argument tracks the
remaining characters of a matched occurrence still to skip. -/
def replaceAux (pat repl : Str) : Nat → Str → Str
  | _, [] => []
  | skip + 1, _ :: rest => replaceAux pat repl skip rest
  | 0, c :: rest =>
    if startsWith pat (c :: rest) then
      repl ++ replaceAux pat repl (pat.length - 1) rest
    else c :: replaceAux pat repl 0 rest

/-- Python `s.replace(pat, repl)` (the empty-pattern case, unused by the
script, is left as the identity). -/
def pyReplace (pat repl s : Str) : Str :=
  if pat = [] then s else replaceAux pat repl 0 s

/-- The output filename derivation of `main` (lines 370-371):
`input_path.stem.replace('-en', '') + "-ko.vtt"`. -/
def output_filename (input_file : Str) : Str :=
  pyReplace ("-en".toList) [] (stemOf input_file) ++ ("-ko.vtt".toList)

/-- The post-parse slice of `main` (lines 357-374): if no subtitles were
parsed, exit with status 1 before any translation; otherwise translate and
produce the output filename together with the text written to it. -/
def run_pipeline (tf : Str → Option Str) (content : Str) (input_file : Str) :
    Except Nat (Str × Str) :=
  let parsed := parse_vtt_file content
  if parsed.2 = [] then Except.error 1
  else
    Except.ok (output_filename input_file,
      write_vtt_file parsed.1 (translate_subtitles tf parsed.2))

-- Sanity checks of the embedding on concrete inputs.
theorem sanity_parse_one_block :
    parse_vtt_file ("WEBVTT\n\n00:01.000 --> 00:04.000\nHello there".toList) =
      (webvttStr, [⟨"00:01.000 --> 00:04.000".toList, "Hello there".toList⟩]) := by
  decide

theorem sanity_clean_line :
    cleanLine (" 12.  안녕  ".toList) = "안녕".toList := by
  decide

theorem sanity_output_filename :
    output_filename ("subtitles-en.vtt".toList) = "subtitles-ko.vtt".toList := by
  decide

/-! ## The batch loop: order, count and fallback -/

theorem enum_map_snd_comp {α β : Type _} (f : α → β) (l : List α) :
    l.enum.map (fun p => f p.2) = l.map f := by
  have h : (fun p : Nat × α => f p.2) = f ∘ Prod.snd := rfl
  rw [h, ← List.map_map, List.enum_map_snd]

theorem processBatch_map_timestamp (tf : Str → Option Str) (batch : List Cue) :
    (processBatch tf batch).map Cue.timestamp = batch.map Cue.timestamp := by
  simp only [processBatch]
  rw [List.map_map]
  exact enum_map_snd_comp Cue.timestamp batch

theorem translate_text_batch_none (tf : Str → Option Str) (texts : List Str)
    (h : tf (buildPrompt texts) = none) : translate_text_batch tf texts = texts := by
  by_cases he : texts = []
  · subst he; simp [translate_text_batch]
  · simp [translate_text_batch, he, h]

theorem enum_assign_self (l : List Cue) :
    l.enum.map (fun p => Cue.mk p.2.timestamp ((l.map Cue.text).getD p.1 p.2.text)) = l := by
  apply List.ext_get
  · simp [List.enum_length]
  · intro n h1 h2
    simp only [List.get_eq_getElem, List.getElem_map, List.getElem_enum]
    rw [List.getD_eq_getElem (l.map Cue.text) _ (by simpa using h2)]
    simp

theorem processBatch_fallback (tf : Str → Option Str) (batch : List Cue)
    (h : tf (buildPrompt (batch.map Cue.text)) = none) :
    processBatch tf batch = batch := by
  simp only [processBatch]
  rw [translate_text_batch_none tf _ h]
  exact enum_assign_self batch

theorem translate_subtitles_map_timestamp (tf : Str → Option Str) (subs : List Cue) :
    (translate_subtitles tf subs).map Cue.timestamp = subs.map Cue.timestamp := by
  induction subs using batches.induct with
  | case1 => simp [translate_subtitles]
  | case2 c rest ih =>
    rw [translate_subtitles, List.map_append, processBatch_map_timestamp, ih,
      ← List.map_append, List.take_append_drop]

theorem translate_subtitles_eq_batches (tf : Str → Option Str) (subs : List Cue) :
    translate_subtitles tf subs = ((batches subs).map (processBatch tf)).flatten := by
  induction subs using batches.induct with
  | case1 => simp [translate_subtitles, batches]
  | case2 c rest ih =>
    rw [translate_subtitles, batches, List.map_cons, List.flatten_cons, ih]

theorem batches_length (subs : List Cue) :
    (batches subs).length = (subs.length + (batch_size - 1)) / batch_size := by
  induction subs using batches.induct with
  | case1 => simp [batches]; decide
  | case2 c rest ih =>
    rw [batches, List.length_cons, ih]
    simp only [List.length_drop, List.length_cons, batch_size]
    omega

theorem batches_flatten (subs : List Cue) : (batches subs).flatten = subs := by
  induction subs using batches.induct with
  | case1 => simp [batches]
  | case2 c rest ih =>
    rw [batches, List.flatten_cons, ih, List.take_append_drop]

theorem batches_mem (subs : List Cue) :
    ∀ b ∈ batches subs, b.length ≤ batch_size ∧ b ≠ [] := by
  induction subs using batches.induct with
  | case1 => simp [batches]
  | case2 c rest ih =>
    intro b hb
    rw [batches] at hb
    rcases List.mem_cons.mp hb with h | h
    · subst h
      refine ⟨?_, ?_⟩
      · rw [List.length_take]; exact inf_le_left
      · rw [show batch_size = 9 + 1 from rfl, List.take_succ_cons]
        exact List.cons_ne_nil _ _
    · exact ih b h

/-- C1: for every input cue sequence and every behavior of the injected
translation function (raising = `none`, or any response text, including one
with fewer, more, or reordered lines), `translate_subtitles` returns exactly
as many cues as it was given, in the original order (cue `k` of the output
corresponds to cue `k` of the input), with each output cue's timestamp
byte-identical to the input cue's at the same position; `write_vtt_file`
then emits the cues in that same list order. -/
theorem c1_order_count_timestamps (tf : Str → Option Str) (subs : List Cue)
    (header : Str) :
    (translate_subtitles tf subs).map Cue.timestamp = subs.map Cue.timestamp ∧
    (translate_subtitles tf subs).length = subs.length ∧
    write_vtt_file header (translate_subtitles tf subs) =
      header ++ '\n' :: '\n' :: [] ++
        ((translate_subtitles tf subs).map
          (fun s => s.timestamp ++ '\n' :: (s.text ++ '\n' :: '\n' :: []))).flatten := by
  refine ⟨translate_subtitles_map_timestamp tf subs, ?_, rfl⟩
  have h := congrArg List.length (translate_subtitles_map_timestamp tf subs)
  simpa using h

/-- C2: if the remote translation call raises for a given batch
(`tf ... = none`), `translate_text_batch` returns the batch's original texts
(the exception is contained there and never propagates), the batch's cues
appear in the output unchanged, and the pipeline processes every batch
independently and in sequence, so no batch failure aborts the run or alters
other batches. -/
theorem c2_batch_failure_contained (tf : Str → Option Str) :
    (∀ subs : List Cue,
        translate_subtitles tf subs = ((batches subs).map (processBatch tf)).flatten) ∧
    (∀ texts : List Str, tf (buildPrompt texts) = none →
        translate_text_batch tf texts = texts) ∧
    (∀ batch : List Cue, tf (buildPrompt (batch.map Cue.text)) = none →
        processBatch tf batch = batch) :=
  ⟨fun subs => translate_subtitles_eq_batches tf subs,
    fun texts h => translate_text_batch_none tf texts h,
    fun batch h => processBatch_fallback tf batch h⟩

/-- A translation function that always raises. -/
def tfNone : Str → Option Str := fun _ => none

theorem c2_witness :
    processBatch tfNone [Cue.mk ("00:00 --> 00:01".toList) ("Hello".toList)] =
      [Cue.mk ("00:00 --> 00:01".toList) ("Hello".toList)] :=
  (c2_batch_failure_contained tfNone).2.2 _ rfl

/-- C4: for `N` input cues and batch size 10, `translate_subtitles` issues
exactly `ceil(N/10) = (N + 9) / 10` translation calls (one per batch, each
batch nonempty), processed sequentially in order; the batches are contiguous
slices of at most 10 consecutive cues whose concatenation is exactly the
input, so they are disjoint and cover all `N` cues exactly once. -/
theorem c4_batch_partition (subs : List Cue) :
    (batches subs).length = (subs.length + (batch_size - 1)) / batch_size ∧
    (batches subs).flatten = subs ∧
    (∀ b ∈ batches subs, b.length ≤ batch_size ∧ b ≠ []) ∧
    (∀ tf : Str → Option Str,
        translate_subtitles tf subs = ((batches subs).map (processBatch tf)).flatten) :=
  ⟨batches_length subs, batches_flatten subs, batches_mem subs,
    fun tf => translate_subtitles_eq_batches tf subs⟩

/-! ## Response cleanup and alignment (claim C3) -/

/-- The response cleanup exactly as claim C3 words it: split the response on
newlines, strip only the leading ordinal prefix (`\d+\.\s*`) from each line,
drop lines that become empty.  (The code additionally whitespace-strips the
whole response and each line first; compare `cleanedLines`.) -/
def specCleanedLines (responseText : Str) : List Str :=
  ((splitOnChar '\n' responseText).map stripNumbering).filter (fun l => !l.isEmpty)

/-- Claim C3's assignment: cue `j` receives cleaned line `j` (of the list
truncated to `N` entries) when it exists, otherwise keeps its original text. -/
def specBatchTexts (responseText : Str) (texts : List Str) : List Str :=
  texts.enum.map
    (fun p => ((specCleanedLines responseText).take texts.length).getD p.1 p.2)

/-- The cleaned response lines as the code computes them
(`translate_text_batch`, lines 265-273). -/
def cleanedLines (responseText : Str) : List Str :=
  ((splitOnChar '\n' (strip responseText)).map cleanLine).filter (fun l => !l.isEmpty)

/-- Positional alignment of cleaned lines to a batch, cue `j` falling back
to its original text when line `j` is missing. -/
def alignBatch (batch : List Cue) (cleaned : List Str) : List Cue :=
  batch.enum.map
    (fun p => ⟨p.2.timestamp, (cleaned.take batch.length).getD p.1 p.2.text⟩)

/-- A translation function answering `"1. A\n 2. B"` (note the space before
`2.`, as a model may emit). -/
def tfIndented : Str → Option Str := fun _ => some ("1. A\n 2. B".toList)

/-- A translation function answering `"1. A\n2. B\n3. C"`. -/
def tfABC : Str → Option Str := fun _ => some ("1. A\n2. B\n3. C".toList)

/-- A translation function answering only two non-empty lines. -/
def tfAB : Str → Option Str := fun _ => some ("1. A\n2. B".toList)

theorem c3_counterexample :
    translate_text_batch tfIndented ["x".toList, "y".toList] =
      ["A".toList, "B".toList] ∧
    specBatchTexts ("1. A\n 2. B".toList) ["x".toList, "y".toList] =
      ["A".toList, " 2. B".toList] ∧
    ¬ translate_text_batch tfIndented ["x".toList, "y".toList] =
        specBatchTexts ("1. A\n 2. B".toList) ["x".toList, "y".toList] := by
  decide

/-- C3 (amended): `translate_text_batch` splits the whitespace-stripped
response on newlines, whitespace-strips each line and then removes any
leading prefix of one-or-more digits, a period, and optional whitespace,
drops lines that become empty after this cleaning, truncates the cleaned
list to at most `N` entries, and cue `j` of the batch receives cleaned line
`j` when it exists and otherwise keeps its original text; in particular a
batch of 3 cues with response `"1. A\n2. B\n3. C"` yields texts `A`, `B`,
`C` in order, and a response with only 2 non-empty lines leaves the third
cue at its original text while the first two receive the translations. -/
theorem c3_response_alignment :
    (∀ (tf : Str → Option Str) (batch : List Cue) (r : Str),
        tf (buildPrompt (batch.map Cue.text)) = some r →
        processBatch tf batch = alignBatch batch (cleanedLines r)) ∧
    (∀ u1 u2 u3 : Cue,
        processBatch tfABC [u1, u2, u3] =
          [⟨u1.timestamp, "A".toList⟩, ⟨u2.timestamp, "B".toList⟩,
            ⟨u3.timestamp, "C".toList⟩]) ∧
    (∀ u1 u2 u3 : Cue,
        processBatch tfAB [u1, u2, u3] =
          [⟨u1.timestamp, "A".toList⟩, ⟨u2.timestamp, "B".toList⟩,
            ⟨u3.timestamp, u3.text⟩]) := by
  refine ⟨?_, fun u1 u2 u3 => rfl, fun u1 u2 u3 => rfl⟩
  intro tf batch r h
  cases batch with
  | nil => rfl
  | cons c cs =>
    have hne : ¬ (c :: cs).map Cue.text = [] := by simp
    have key : translate_text_batch tf ((c :: cs).map Cue.text) =
        (cleanedLines r).take ((c :: cs).map Cue.text).length := by
      unfold translate_text_batch
      rw [if_neg hne, h]
      rfl
    simp only [processBatch, alignBatch]
    rw [key, List.length_map]

theorem c3_witness :
    processBatch tfAB [Cue.mk ("t".toList) ("x".toList)] =
      alignBatch [Cue.mk ("t".toList) ("x".toList)]
        (cleanedLines ("1. A\n2. B".toList)) :=
  c3_response_alignment.1 tfAB _ _ rfl

/-! ## Output filename derivation (claims C5 and C10) -/

/-- Claim C5's description of the filename derivation: remove an `-en`
SUFFIX from the input's stem (if present), then append `-ko.vtt`. -/
def specOutputFilename (input_file : Str) : Str :=
  (if endsWith ("-en".toList) (stemOf input_file) then
      (stemOf input_file).take ((stemOf input_file).length - 3)
    else stemOf input_file) ++ ("-ko.vtt".toList)

theorem c5_counterexample :
    output_filename ("the-end-en.vtt".toList) = "thed-ko.vtt".toList ∧
    specOutputFilename ("the-end-en.vtt".toList) = "the-end-ko.vtt".toList ∧
    ¬ output_filename ("the-end-en.vtt".toList) =
        specOutputFilename ("the-end-en.vtt".toList) := by
  decide

theorem replaceAux_not_contained (p : Char) (ps repl : Str) :
    ∀ s : Str, containsSub (p :: ps) s = false → replaceAux (p :: ps) repl 0 s = s := by
  intro s
  induction s with
  | nil => intro _; rfl
  | cons c rest ih =>
    intro h
    simp only [containsSub, Bool.or_eq_false_iff] at h
    simp [replaceAux, h.1, ih h.2]

theorem pyReplace_id_of_not_contained (pat repl s : Str)
    (h : containsSub pat s = false) (hp : pat ≠ []) : pyReplace pat repl s = s := by
  cases pat with
  | nil => exact absurd rfl hp
  | cons p ps =>
    unfold pyReplace
    rw [if_neg (by simp)]
    exact replaceAux_not_contained p ps repl s h

/-- C5 (amended): the output filename is derived by removing EVERY
occurrence of `-en` from the input's stem (not only a suffix) and appending
`-ko.vtt`; a stem containing no `-en` at all still gets `-ko.vtt` appended
unchanged, and the two examples hold: `subtitles-en.vtt` maps to
`subtitles-ko.vtt` and `lecture.vtt` maps to `lecture-ko.vtt`. -/
theorem c5_filename_derivation :
    (∀ p : Str, output_filename p =
        pyReplace ("-en".toList) [] (stemOf p) ++ ("-ko.vtt".toList)) ∧
    (∀ p : Str, containsSub ("-en".toList) (stemOf p) = false →
        output_filename p = stemOf p ++ ("-ko.vtt".toList)) ∧
    output_filename ("subtitles-en.vtt".toList) = "subtitles-ko.vtt".toList ∧
    output_filename ("lecture.vtt".toList) = "lecture-ko.vtt".toList := by
  refine ⟨fun p => rfl, ?_, by decide, by decide⟩
  intro p h
  unfold output_filename
  rw [pyReplace_id_of_not_contained _ _ _ h (by decide)]

theorem c5_witness :
    output_filename ("lecture.vtt".toList) =
      stemOf ("lecture.vtt".toList) ++ ("-ko.vtt".toList) :=
  c5_filename_derivation.2.1 _ (by decide)

theorem splitOnChar_ne_nil (sep : Char) (s : Str) : splitOnChar sep s ≠ [] := by
  cases s with
  | nil => simp [splitOnChar]
  | cons c rest =>
    simp only [splitOnChar]
    split
    · simp
    · split <;> simp

theorem splitOnChar_not_mem (sep : Char) (s : Str) :
    ∀ seg ∈ splitOnChar sep s, sep ∉ seg := by
  induction s with
  | nil =>
    intro seg h
    simp [splitOnChar] at h
    subst h
    simp
  | cons c rest ih =>
    intro seg h
    by_cases hc : c = sep
    · rw [splitOnChar, if_pos hc] at h
      rcases List.mem_cons.mp h with h | h
      · subst h; simp
      · exact ih seg h
    · rw [splitOnChar, if_neg hc] at h
      cases heq : splitOnChar sep rest with
      | nil => exact absurd heq (splitOnChar_ne_nil sep rest)
      | cons h0 t0 =>
        rw [heq] at h
        rcases List.mem_cons.mp h with h | h
        · subst h
          intro hin
          rcases List.mem_cons.mp hin with h' | h'
          · exact hc h'.symm
          · exact ih h0 (heq ▸ List.mem_cons_self h0 t0) h'
        · exact ih seg (heq ▸ List.mem_cons_of_mem h0 h)

theorem splitOnChar_of_not_mem (sep : Char) (a : Str) (h : sep ∉ a) :
    splitOnChar sep a = [a] := by
  induction a with
  | nil => rfl
  | cons c rest ih =>
    have hc : ¬ c = sep := by
      rintro rfl
      exact h (List.mem_cons_self _ _)
    have hr : sep ∉ rest := fun m => h (List.mem_cons_of_mem _ m)
    rw [splitOnChar, if_neg hc, ih hr]

theorem splitOnChar_append (sep : Char) (a : Str) :
    ∀ t : Str, sep ∉ a → splitOnChar sep (a ++ sep :: t) = a :: splitOnChar sep t := by
  induction a with
  | nil => intro t _; rw [List.nil_append, splitOnChar, if_pos rfl]
  | cons c a' ih =>
    intro t ha
    have hc : ¬ c = sep := by
      rintro rfl
      exact ha (List.mem_cons_self _ _)
    have ha' : sep ∉ a' := fun m => ha (List.mem_cons_of_mem _ m)
    rw [List.cons_append, splitOnChar, if_neg hc, ih t ha']

theorem getLastD_mem {α : Type _} (l : List α) :
    ∀ d : α, l ≠ [] → l.getLastD d ∈ l := by
  induction l with
  | nil => intro d h; exact absurd rfl h
  | cons a t ih =>
    intro d _
    cases t with
    | nil => simp
    | cons b t' =>
      rw [List.getLastD_cons]
      exact List.mem_cons_of_mem a (ih a (by simp))

theorem basenameOf_no_slash (p : Str) : '/' ∉ basenameOf p := by
  unfold basenameOf
  by_cases h :
      (splitOnChar '/' p).filter (fun seg => decide (seg ≠ [] ∧ seg ≠ ['.'])) = []
  · rw [h]; simp
  · have hmem := getLastD_mem _ ([] : Str) h
    have hmem' := List.mem_of_mem_filter hmem
    exact splitOnChar_not_mem '/' p _ hmem'

theorem basenameOf_props (p : Str) :
    basenameOf p = [] ∨ (basenameOf p ≠ [] ∧ basenameOf p ≠ ['.']) := by
  unfold basenameOf
  by_cases h :
      (splitOnChar '/' p).filter (fun seg => decide (seg ≠ [] ∧ seg ≠ ['.'])) = []
  · left; rw [h]; rfl
  · right
    have hmem := getLastD_mem _ ([] : Str) h
    have hp := List.of_mem_filter hmem
    rw [decide_eq_true_eq] at hp
    exact hp

theorem basenameOf_idem (p : Str) : basenameOf (basenameOf p) = basenameOf p := by
  rcases basenameOf_props p with h | ⟨h1, h2⟩
  · rw [h]; rfl
  · have hs := basenameOf_no_slash p
    conv_lhs => rw [basenameOf]
    rw [splitOnChar_of_not_mem '/' _ hs]
    rw [List.filter_cons, if_pos (by rw [decide_eq_true_eq]; exact ⟨h1, h2⟩)]
    rfl

theorem stemOf_basename (p : Str) : stemOf (basenameOf p) = stemOf p := by
  unfold stemOf
  rw [basenameOf_idem]

theorem stemOf_no_slash (p : Str) : '/' ∉ stemOf p := by
  have hb := basenameOf_no_slash p
  unfold stemOf stemAux
  split
  · split
    · intro hc; exact hb (List.take_subset _ _ hc)
    · exact hb
  · exact hb

theorem mem_replaceAux_nil (pat : Str) :
    ∀ (s : Str) (k : Nat) (c : Char), c ∈ replaceAux pat [] k s → c ∈ s := by
  intro s
  induction s with
  | nil => intro k c h; simp [replaceAux] at h
  | cons a rest ih =>
    intro k c h
    cases k with
    | succ k' =>
      rw [replaceAux] at h
      exact List.mem_cons_of_mem a (ih k' c h)
    | zero =>
      rw [replaceAux] at h
      split at h
      · rw [List.nil_append] at h
        exact List.mem_cons_of_mem a (ih _ c h)
      · rcases List.mem_cons.mp h with h | h
        · subst h; exact List.mem_cons_self _ _
        · exact List.mem_cons_of_mem a (ih 0 c h)

theorem output_filename_no_slash (p : Str) : '/' ∉ output_filename p := by
  intro hc
  unfold output_filename at hc
  rcases List.mem_append.mp hc with h | h
  · have h1 : '/' ∈ stemOf p := by
      unfold pyReplace at h
      rw [if_neg (by decide)] at h
      exact mem_replaceAux_nil _ _ _ _ h
    exact stemOf_no_slash p h1
  · revert h; decide

/-- C10: the output filename is computed from the input path's stem only:
directory components are discarded (the derived name depends only on the
final path component), and the result contains no path separator, so the
output file is written relative to the process's current working directory
rather than next to the input file; for example the input
`/a/b/movie-en.vtt` produces `movie-ko.vtt`. -/
theorem c10_output_relative_to_cwd (p : Str) :
    output_filename p = output_filename (basenameOf p) ∧
    '/' ∉ output_filename p ∧
    output_filename ("/a/b/movie-en.vtt".toList) = "movie-ko.vtt".toList := by
  refine ⟨?_, output_filename_no_slash p, by decide⟩
  unfold output_filename
  rw [stemOf_basename]

/-! ## Parser invariants (claims C6, C7, C8) -/

theorem head?_dropWhile_false {α : Type _} (p : α → Bool) (l : List α) :
    ∀ c, (l.dropWhile p).head? = some c → p c = false := by
  induction l with
  | nil => intro c h; simp at h
  | cons a t ih =>
    intro c h
    rw [List.dropWhile_cons] at h
    split at h
    · exact ih c h
    · next hp =>
      simp only [List.head?_cons, Option.some.injEq] at h
      subst h
      simpa using hp

theorem rstrip_getLast (s : Str) :
    ∀ c, (rstrip s).getLast? = some c → isSpace c = false := by
  intro c h
  unfold rstrip at h
  rw [List.getLast?_reverse] at h
  exact head?_dropWhile_false isSpace _ c h

theorem strip_getLast (s : Str) :
    ∀ c, (strip s).getLast? = some c → isSpace c = false :=
  fun c h => rstrip_getLast (lstrip s) c h

theorem getLast?_cons_of_ne_nil {α : Type _} (a : α) (l : List α) (h : l ≠ []) :
    (a :: l).getLast? = l.getLast? := by
  cases l with
  | nil => exact absurd rfl h
  | cons b t => exact List.getLast?_cons_cons

theorem splitOnChar_getLast_ne_nil (sep : Char) :
    ∀ (s : Str) (c0 : Char), s.getLast? = some c0 → c0 ≠ sep →
      ∀ l, (splitOnChar sep s).getLast? = some l → l ≠ [] := by
  intro s
  induction s with
  | nil => intro c0 h; simp at h
  | cons x s' ih =>
    intro c0 h hne l hl
    cases s' with
    | nil =>
      obtain rfl : x = c0 := by simpa using h
      simp only [splitOnChar] at hl
      rw [if_neg hne] at hl
      simp at hl
      subst hl
      exact List.cons_ne_nil _ _
    | cons y s'' =>
      rw [List.getLast?_cons_cons] at h
      by_cases hx : x = sep
      · rw [splitOnChar, if_pos hx] at hl
        rw [getLast?_cons_of_ne_nil _ _ (splitOnChar_ne_nil sep (y :: s''))] at hl
        exact ih c0 h hne l hl
      · rw [splitOnChar, if_neg hx] at hl
        cases heq : splitOnChar sep (y :: s'') with
        | nil => exact absurd heq (splitOnChar_ne_nil _ _)
        | cons h0 t0 =>
          rw [heq] at hl
          cases t0 with
          | nil =>
            simp at hl
            subst hl
            exact List.cons_ne_nil _ _
          | cons z t1 =>
            rw [List.getLast?_cons_cons] at hl
            refine ih c0 h hne l ?_
            rw [heq, List.getLast?_cons_cons]
            exact hl

theorem joinNl_ne_nil (ls : List Str) :
    ∀ l, ls.getLast? = some l → l ≠ [] → joinNl ls ≠ [] := by
  cases ls with
  | nil => intro l h; simp at h
  | cons a t =>
    intro l h hne
    cases t with
    | nil =>
      obtain rfl : a = l := by simpa using h
      simpa [joinNl] using hne
    | cons b t' =>
      simp [joinNl, List.append_eq_nil]

theorem exists_getLast?_of_ne_nil {α : Type _} (l : List α) (h : l ≠ []) :
    ∃ c, l.getLast? = some c :=
  ⟨l.getLast h, List.getLast?_eq_getLast l h⟩

theorem parseBlock_invariant (b : Str) (cue : Cue) (h : parseBlock b = some cue) :
    containsSub arrow cue.timestamp = true ∧ cue.text ≠ [] := by
  unfold parseBlock at h
  split at h
  · exact absurd h (by simp)
  · next hsb =>
    obtain ⟨c0, hc0⟩ := exists_getLast?_of_ne_nil (strip b) hsb
    have hc0s : isSpace c0 = false := strip_getLast b c0 hc0
    have hc0n : c0 ≠ '\n' := by rintro rfl; simp [isSpace] at hc0s
    split at h
    · next l0 l1 rest heq =>
      split at h
      · next harr =>
        injection h with h'
        subst h'
        refine ⟨harr, ?_⟩
        obtain ⟨ll, hll⟩ := exists_getLast?_of_ne_nil (l1 :: rest) (by simp)
        have hlast : (splitOnChar '\n' (strip b)).getLast? = some ll := by
          rw [heq, List.getLast?_cons_cons]
          exact hll
        have hllne := splitOnChar_getLast_ne_nil '\n' (strip b) c0 hc0 hc0n ll hlast
        exact joinNl_ne_nil (l1 :: rest) ll hll hllne
      · split at h
        · next l2 rest' =>
          split at h
          · next harr =>
            injection h with h'
            subst h'
            refine ⟨harr, ?_⟩
            obtain ⟨ll, hll⟩ := exists_getLast?_of_ne_nil (l2 :: rest') (by simp)
            have hlast : (splitOnChar '\n' (strip b)).getLast? = some ll := by
              rw [heq, List.getLast?_cons_cons, List.getLast?_cons_cons]
              exact hll
            have hllne := splitOnChar_getLast_ne_nil '\n' (strip b) c0 hc0 hc0n ll hlast
            exact joinNl_ne_nil (l2 :: rest') ll hll hllne
          · exact absurd h (by simp)
        · exact absurd h (by simp)
    · exact absurd h (by simp)

/-- C6: every cue produced by `parse_vtt_file`, for any input text,
satisfies the data-model invariant: its timestamp contains the literal
arrow separator `-->` and its text field is a non-empty string (blocks
that would yield an empty text are skipped, never represented as cues). -/
theorem c6_cue_invariant (content : Str) (cue : Cue)
    (h : cue ∈ (parse_vtt_file content).2) :
    containsSub arrow cue.timestamp = true ∧ cue.text ≠ [] := by
  simp only [parse_vtt_file] at h
  rcases List.mem_filterMap.mp h with ⟨b, _, hb⟩
  exact parseBlock_invariant b cue hb

theorem c6_witness :
    containsSub arrow ("00:01.000 --> 00:04.000".toList) = true ∧
    ("Hello there".toList : Str) ≠ [] :=
  c6_cue_invariant ("WEBVTT\n\n00:01.000 --> 00:04.000\nHello there".toList)
    ⟨"00:01.000 --> 00:04.000".toList, "Hello there".toList⟩ (by decide)

/-- C8: if parsing a file produces zero valid cue blocks, `parse_vtt_file`
returns an empty cue sequence as a value (the embedding is a total
function — no exception), and the orchestrator then terminates the run with
the non-zero outcome 1 before any translation call is made: the run's
result does not depend on the injected translation function at all, and the
batch list driving the translation loop is empty, so no translation request
is ever issued for an empty document. -/
theorem c8_empty_document_short_circuit (content input_file : Str)
    (tf : Str → Option Str) (h : (parse_vtt_file content).2 = []) :
    run_pipeline tf content input_file = Except.error 1 ∧
    (∀ tf' : Str → Option Str,
        run_pipeline tf content input_file = run_pipeline tf' content input_file) ∧
    batches (parse_vtt_file content).2 = [] := by
  refine ⟨?_, ?_, ?_⟩
  · simp [run_pipeline, h]
  · intro tf'; simp [run_pipeline, h]
  · rw [h]; simp [batches]

theorem c8_witness :
    run_pipeline tfNone ("WEBVTT".toList) ("subtitles-en.vtt".toList) =
      Except.error 1 :=
  (c8_empty_document_short_circuit _ _ tfNone (by decide)).1

/-! ## Block splitting (claim C7) -/

theorem head?_mem {α : Type _} (l : List α) (c : α) (h : l.head? = some c) : c ∈ l := by
  cases l with
  | nil => simp at h
  | cons a t =>
    obtain rfl : a = c := by simpa using h
    exact List.mem_cons_self _ _

theorem getLast?_mem {α : Type _} (l : List α) (c : α) (h : l.getLast? = some c) :
    c ∈ l := by
  induction l with
  | nil => simp at h
  | cons a t ih =>
    cases t with
    | nil =>
      obtain rfl : a = c := by simpa using h
      exact List.mem_cons_self _ _
    | cons b t' =>
      rw [List.getLast?_cons_cons] at h
      exact List.mem_cons_of_mem a (ih h)

theorem head?_append_left {α : Type _} (l l' : List α) (c : α) (h : l.head? = some c) :
    (l ++ l').head? = some c := by
  cases l with
  | nil => simp at h
  | cons a t => simpa using h

theorem getLast?_append_right {α : Type _} (l l' : List α) (h : l' ≠ []) :
    (l ++ l').getLast? = l'.getLast? := by
  rw [List.getLast?_append]
  obtain ⟨c, hc⟩ := exists_getLast?_of_ne_nil l' h
  rw [hc]
  rfl

theorem append_cons_ne_nil {α : Type _} (l : List α) (a : α) (t : List α) :
    l ++ a :: t ≠ [] := by
  intro h
  rcases List.append_eq_nil.mp h with ⟨-, h2⟩
  exact List.cons_ne_nil _ _ h2

theorem all_isSpace_false_of_mem (s : Str) (c : Char) (hc : c ∈ s)
    (hcs : isSpace c = false) : s.all isSpace = false := by
  cases hall : s.all isSpace with
  | false => rfl
  | true =>
    rw [List.all_eq_true.mp hall c hc] at hcs
    exact absurd hcs (by simp)

theorem containsSub_arrow_mem (s : Str) (h : containsSub arrow s = true) : '-' ∈ s := by
  induction s with
  | nil => exact absurd h (by decide)
  | cons c rest ih =>
    rw [containsSub, Bool.or_eq_true] at h
    rcases h with h1 | h2
    · have harr : arrow = '-' :: ('-' :: ('>' :: [])) := rfl
      rw [harr, startsWith, Bool.and_eq_true, decide_eq_true_eq] at h1
      obtain ⟨rfl, -⟩ := h1
      exact List.mem_cons_self _ _
    · exact List.mem_cons_of_mem _ (ih h2)

theorem matchWsNl_none_of_line (w : Str) :
    ∀ z : Str, '\n' ∉ w → w.all isSpace = false → matchWsNl (w ++ z) = none := by
  induction w with
  | nil => intro z _ hws; simp at hws
  | cons c w' ih =>
    intro z hnl hws
    have hcn : ¬ c = '\n' := by rintro rfl; exact hnl (List.mem_cons_self _ _)
    rw [List.cons_append]
    by_cases hcs : isSpace c = true
    · have hw' : w'.all isSpace = false := by
        rw [List.all_cons, hcs] at hws
        simpa using hws
      have hnl' : '\n' ∉ w' := fun m => hnl (List.mem_cons_of_mem _ m)
      rw [matchWsNl, if_pos hcs, ih z hnl' hw']
      simp [hcn]
    · rw [matchWsNl, if_neg hcs]

theorem matchWsNl_nl (z : Str) (h : matchWsNl z = none) :
    matchWsNl ('\n' :: z) = some 1 := by
  rw [matchWsNl, if_pos (by decide), h]
  rfl

theorem splitAux_skip (l : Str) :
    ∀ (acc t : Str), splitBlocksAux acc l.length (l ++ t) = splitBlocksAux acc 0 t := by
  induction l with
  | nil => intro acc t; rfl
  | cons c l' ih =>
    intro acc t
    rw [List.length_cons, List.cons_append, splitBlocksAux, ih]

theorem splitAux_seg (a : Str) :
    ∀ (acc t : Str), '\n' ∉ a →
      splitBlocksAux acc 0 (a ++ t) = splitBlocksAux (a.reverse ++ acc) 0 t := by
  induction a with
  | nil => intro acc t _; simp
  | cons c a' ih =>
    intro acc t ha
    have hc : ¬ c = '\n' := by rintro rfl; exact ha (List.mem_cons_self _ _)
    have ha' : '\n' ∉ a' := fun m => ha (List.mem_cons_of_mem _ m)
    rw [List.cons_append, splitBlocksAux, if_neg hc, ih (c :: acc) t ha']
    rw [List.reverse_cons, List.append_assoc]
    rfl

theorem splitAux_sep (acc t : Str) (n : Nat) (h : matchWsNl t = some n) :
    splitBlocksAux acc 0 ('\n' :: t) = acc.reverse :: splitBlocksAux [] n t := by
  rw [splitBlocksAux, if_pos rfl, h]

theorem splitAux_nosep (acc t : Str) (h : matchWsNl t = none) :
    splitBlocksAux acc 0 ('\n' :: t) = splitBlocksAux ('\n' :: acc) 0 t := by
  rw [splitBlocksAux, if_pos rfl, h]

theorem splitAux_final (a : Str) (acc : Str) (h : '\n' ∉ a) :
    splitBlocksAux acc 0 a = [acc.reverse ++ a] := by
  have h1 := splitAux_seg a acc [] h
  rw [List.append_nil] at h1
  rw [h1, splitBlocksAux]
  simp

theorem dropWhile_eq_self_of_head {α : Type _} (p : α → Bool) (l : List α) (c : α)
    (hh : l.head? = some c) (hp : p c = false) : l.dropWhile p = l := by
  cases l with
  | nil => simp at hh
  | cons a t =>
    obtain rfl : a = c := by simpa using hh
    simp [List.dropWhile_cons, hp]

theorem rstrip_eq_self (s : Str) (c : Char) (h : s.getLast? = some c)
    (hs : isSpace c = false) : rstrip s = s := by
  unfold rstrip
  rw [dropWhile_eq_self_of_head isSpace s.reverse c (by rw [List.head?_reverse]; exact h) hs,
    List.reverse_reverse]

theorem strip_eq_self (s : Str) (c0 cl : Char) (h0 : s.head? = some c0)
    (hs0 : isSpace c0 = false) (hl : s.getLast? = some cl) (hsl : isSpace cl = false) :
    strip s = s := by
  unfold strip lstrip
  rw [dropWhile_eq_self_of_head isSpace s c0 h0 hs0]
  exact rstrip_eq_self s cl hl hsl

theorem splitAux_skip_one (acc : Str) (c : Char) (t : Str) :
    splitBlocksAux acc 1 (c :: t) = splitBlocksAux acc 0 t := by
  rw [splitBlocksAux]

theorem splitBlocks_c7 (idl ts t1 t2 : Str)
    (hid_nl : '\n' ∉ idl) (hts_nl : '\n' ∉ ts) (ht1_nl : '\n' ∉ t1) (ht2_nl : '\n' ∉ t2)
    (hid_ws : idl.all isSpace = false) (hts_ws : ts.all isSpace = false)
    (ht1_ws : t1.all isSpace = false) (ht2_ws : t2.all isSpace = false) :
    splitBlocks (webvttStr ++ '\n' :: '\n' ::
        (idl ++ '\n' :: (ts ++ '\n' :: (t1 ++ '\n' :: t2)))) =
      [webvttStr, idl ++ '\n' :: (ts ++ '\n' :: (t1 ++ '\n' :: t2))] := by
  have hmt2 : matchWsNl t2 = none := by
    have h := matchWsNl_none_of_line t2 [] ht2_nl ht2_ws
    rwa [List.append_nil] at h
  have hmblock : matchWsNl (idl ++ '\n' :: (ts ++ '\n' :: (t1 ++ '\n' :: t2))) = none :=
    matchWsNl_none_of_line idl _ hid_nl hid_ws
  unfold splitBlocks
  rw [splitAux_seg webvttStr [] _ (by decide)]
  rw [splitAux_sep _ _ 1 (matchWsNl_nl _ hmblock)]
  rw [splitAux_skip_one]
  rw [splitAux_seg idl _ _ hid_nl]
  rw [splitAux_nosep _ _ (matchWsNl_none_of_line ts _ hts_nl hts_ws)]
  rw [splitAux_seg ts _ _ hts_nl]
  rw [splitAux_nosep _ _ (matchWsNl_none_of_line t1 _ ht1_nl ht1_ws)]
  rw [splitAux_seg t1 _ _ ht1_nl]
  rw [splitAux_nosep _ _ hmt2]
  rw [splitAux_final t2 _ ht2_nl]
  simp [List.append_assoc]

theorem getLast?_c7_block (idl ts t1 t2 : Str) (c2 : Char)
    (hc2 : t2.getLast? = some c2) :
    (idl ++ '\n' :: (ts ++ '\n' :: (t1 ++ '\n' :: t2))).getLast? = some c2 := by
  have ht2_ne : t2 ≠ [] := by rintro rfl; simp at hc2
  rw [getLast?_append_right _ _ (List.cons_ne_nil _ _),
    getLast?_cons_of_ne_nil _ _ (append_cons_ne_nil _ _ _),
    getLast?_append_right _ _ (List.cons_ne_nil _ _),
    getLast?_cons_of_ne_nil _ _ (append_cons_ne_nil _ _ _),
    getLast?_append_right _ _ (List.cons_ne_nil _ _),
    getLast?_cons_of_ne_nil _ _ ht2_ne]
  exact hc2

theorem parseBlock_c7 (idl ts t1 t2 : Str)
    (hid_arrow : containsSub arrow idl = false)
    (hts_arrow : containsSub arrow ts = true)
    (hid_nl : '\n' ∉ idl) (hts_nl : '\n' ∉ ts) (ht1_nl : '\n' ∉ t1) (ht2_nl : '\n' ∉ t2)
    (ch c2 : Char) (hch : idl.head? = some ch) (hchs : isSpace ch = false)
    (hc2 : t2.getLast? = some c2) (hc2s : isSpace c2 = false) :
    parseBlock (idl ++ '\n' :: (ts ++ '\n' :: (t1 ++ '\n' :: t2))) =
      some ⟨ts, t1 ++ '\n' :: t2⟩ := by
  have hhead : (idl ++ '\n' :: (ts ++ '\n' :: (t1 ++ '\n' :: t2))).head? = some ch :=
    head?_append_left idl _ ch hch
  have hlast := getLast?_c7_block idl ts t1 t2 c2 hc2
  have hstrip := strip_eq_self _ ch c2 hhead hchs hlast hc2s
  unfold parseBlock
  rw [hstrip]
  rw [if_neg (append_cons_ne_nil idl '\n' _)]
  rw [splitOnChar_append '\n' idl _ hid_nl]
  rw [splitOnChar_append '\n' ts _ hts_nl]
  rw [splitOnChar_append '\n' t1 _ ht1_nl]
  rw [splitOnChar_of_not_mem '\n' t2 ht2_nl]
  simp [hid_arrow, hts_arrow, joinNl]

/-- C7: for every block consisting of a leading identifier line without the
arrow separator, a timestamp line containing the arrow separator, and two
following text lines, `parse_vtt_file` yields exactly one cue whose
timestamp is the second line and whose text is the two text lines joined
with a newline, with the identifier line discarded.  The side conditions
say the four lines are genuine single lines of one well-formed block: none
contains an embedded newline, the identifier is nonempty and starts with a
non-whitespace character, the first text line is not blank, and the last
text line is nonempty and ends with a non-whitespace character (so the
block's boundaries survive the document-level `strip`/`re.split`). -/
theorem c7_identifier_block (idl ts t1 t2 : Str)
    (hid_arrow : containsSub arrow idl = false)
    (hts_arrow : containsSub arrow ts = true)
    (hid_nl : '\n' ∉ idl) (hts_nl : '\n' ∉ ts) (ht1_nl : '\n' ∉ t1) (ht2_nl : '\n' ∉ t2)
    (hid_ne : idl ≠ []) (ht2_ne : t2 ≠ [])
    (hid_head : idl.head?.all (fun c => !isSpace c) = true)
    (ht1_ws : t1.all isSpace = false)
    (ht2_last : t2.getLast?.all (fun c => !isSpace c) = true) :
    parse_vtt_file (webvttStr ++ '\n' :: '\n' ::
        (idl ++ '\n' :: (ts ++ '\n' :: (t1 ++ '\n' :: t2)))) =
      (webvttStr, [⟨ts, t1 ++ '\n' :: t2⟩]) := by
  obtain ⟨ch, hch⟩ : ∃ c, idl.head? = some c := by
    cases idl with
    | nil => exact absurd rfl hid_ne
    | cons a t => exact ⟨a, rfl⟩
  have hchs : isSpace ch = false := by
    rw [hch] at hid_head
    simpa [Option.all] using hid_head
  obtain ⟨c2, hc2⟩ := exists_getLast?_of_ne_nil t2 ht2_ne
  have hc2s : isSpace c2 = false := by
    rw [hc2] at ht2_last
    simpa [Option.all] using ht2_last
  have hid_ws : idl.all isSpace = false :=
    all_isSpace_false_of_mem idl ch (head?_mem idl ch hch) hchs
  have hts_ws : ts.all isSpace = false :=
    all_isSpace_false_of_mem ts '-' (containsSub_arrow_mem ts hts_arrow) (by decide)
  have ht2_ws : t2.all isSpace = false :=
    all_isSpace_false_of_mem t2 c2 (getLast?_mem t2 c2 hc2) hc2s
  have hheadC : (webvttStr ++ '\n' :: '\n' ::
      (idl ++ '\n' :: (ts ++ '\n' :: (t1 ++ '\n' :: t2)))).head? = some 'W' := rfl
  have hlastC : (webvttStr ++ '\n' :: '\n' ::
      (idl ++ '\n' :: (ts ++ '\n' :: (t1 ++ '\n' :: t2)))).getLast? = some c2 := by
    rw [getLast?_append_right _ _ (List.cons_ne_nil _ _), List.getLast?_cons_cons,
      getLast?_cons_of_ne_nil _ _ (append_cons_ne_nil _ _ _)]
    exact getLast?_c7_block idl ts t1 t2 c2 hc2
  have hstrip := strip_eq_self _ 'W' c2 hheadC (by decide) hlastC hc2s
  have hpb := parseBlock_c7 idl ts t1 t2 hid_arrow hts_arrow hid_nl hts_nl ht1_nl
    ht2_nl ch c2 hch hchs hc2 hc2s
  simp only [parse_vtt_file]
  rw [hstrip]
  rw [splitBlocks_c7 idl ts t1 t2 hid_nl hts_nl ht1_nl ht2_nl hid_ws hts_ws ht1_ws ht2_ws]
  simp only [List.headD_cons, List.tail_cons,
    show startsWith webvttStr webvttStr = true from by decide, if_true]
  simp [List.filterMap_cons, hpb]

theorem c7_witness :
    parse_vtt_file (webvttStr ++ '\n' :: '\n' ::
        (("1".toList : Str) ++ '\n' :: (("00:01.000 --> 00:04.000".toList : Str) ++
          '\n' :: (("Hello".toList : Str) ++ '\n' :: ("world".toList : Str))))) =
      (webvttStr, [⟨"00:01.000 --> 00:04.000".toList,
        ("Hello".toList : Str) ++ '\n' :: ("world".toList : Str)⟩]) :=
  c7_identifier_block ("1".toList) ("00:01.000 --> 00:04.000".toList)
    ("Hello".toList) ("world".toList) (by decide) (by decide) (by decide) (by decide)
    (by decide) (by decide) (by decide) (by decide) (by decide) (by decide) (by decide)

/-! ## Spinner stop/join ordering (claim C9)

The `Spinner` class (lines 99-190) runs a daemon thread `_loop` that
repeatedly checks `self._stop.is_set()` and renders a frame; `stop()` sets
the event, `join`s the thread, then clears the rendered line;
`succeed`/`fail` call `stop()` first and only then write the final status
line.  Threading is modelled as a small-step transition relation over an
explicit state: the loop thread's steps (check the stop flag, render a
frame, exit) interleave arbitrarily with the main thread running `succeed`
(set `_stop`, join, clear the line, write the status line).  The `join`
step can fire only once the loop thread has terminated — exactly the
blocking behavior of `Thread.join`. -/

inductive SpinEv where
  | frame
  | clearLine
  | statusLine
deriving DecidableEq, Repr

/-- `stopFlag` is `self._stop`; `checked` records that the loop passed the
`while not self._stop.is_set()` test and is about to render; `loopDone`
that the loop thread has terminated; `pc` is the main thread's position in
`succeed`: 0 before `_stop.set()`, 1 waiting in `join()`, 2 joined, 3 after
`_clear_line` (`stop()` has returned), 4 after the status line is written;
`out` is the sequence of writes to the shared output stream. -/
structure SpinnerState where
  stopFlag : Bool
  checked : Bool
  loopDone : Bool
  pc : Nat
  out : List SpinEv
deriving DecidableEq, Repr

def spinInit : SpinnerState := ⟨false, false, false, 0, []⟩

inductive SpinStep : SpinnerState → SpinnerState → Prop where
  | loop_check (s : SpinnerState) :
      s.loopDone = false → s.checked = false → s.stopFlag = false →
      SpinStep s { s with checked := true }
  | loop_render (s : SpinnerState) :
      s.checked = true →
      SpinStep s { s with checked := false, out := s.out ++ [SpinEv.frame] }
  | loop_exit (s : SpinnerState) :
      s.loopDone = false → s.checked = false → s.stopFlag = true →
      SpinStep s { s with loopDone := true }
  | main_set (s : SpinnerState) :
      s.pc = 0 → SpinStep s { s with stopFlag := true, pc := 1 }
  | main_join (s : SpinnerState) :
      s.pc = 1 → s.loopDone = true → SpinStep s { s with pc := 2 }
  | main_clear (s : SpinnerState) :
      s.pc = 2 → SpinStep s { s with pc := 3, out := s.out ++ [SpinEv.clearLine] }
  | main_status (s : SpinnerState) :
      s.pc = 3 → SpinStep s { s with pc := 4, out := s.out ++ [SpinEv.statusLine] }

inductive SpinReach : SpinnerState → Prop where
  | init : SpinReach spinInit
  | step (s s' : SpinnerState) : SpinReach s → SpinStep s s' → SpinReach s'

def isStatus : SpinEv → Bool
  | SpinEv.statusLine => true
  | _ => false

def isFrame : SpinEv → Bool
  | SpinEv.frame => true
  | _ => false

/-- No frame redraw at or after the final status line in the output. -/
def noFrameAfterStatus (l : List SpinEv) : Bool :=
  (l.dropWhile (fun e => !isStatus e)).all (fun e => !isFrame e)

/-- The inductive invariant of the spinner machine. -/
def SpinInv (s : SpinnerState) : Prop :=
  (1 ≤ s.pc → s.stopFlag = true) ∧
  (2 ≤ s.pc → s.loopDone = true) ∧
  (s.loopDone = true → s.checked = false) ∧
  (SpinEv.statusLine ∈ s.out → s.pc = 4) ∧
  (3 ≤ s.pc → SpinEv.clearLine ∈ s.out) ∧
  noFrameAfterStatus s.out = true

theorem noFrameAfterStatus_of_not_mem (l : List SpinEv)
    (h : SpinEv.statusLine ∉ l) : noFrameAfterStatus l = true := by
  unfold noFrameAfterStatus
  have hd : l.dropWhile (fun e => !isStatus e) = [] := by
    rw [List.dropWhile_eq_nil_iff]
    intro x hx
    cases x with
    | frame => rfl
    | clearLine => rfl
    | statusLine => exact absurd hx h
  rw [hd]
  rfl

theorem dropWhile_append_of_all {α : Type _} (p : α → Bool) (l t : List α)
    (h : ∀ x ∈ l, p x = true) :
    (l ++ t).dropWhile p = t.dropWhile p := by
  induction l with
  | nil => rfl
  | cons a l' ih =>
    rw [List.cons_append, List.dropWhile_cons, if_pos (h a (List.mem_cons_self _ _))]
    exact ih fun x hx => h x (List.mem_cons_of_mem _ hx)

theorem noFrameAfterStatus_append_status (l : List SpinEv)
    (h : SpinEv.statusLine ∉ l) :
    noFrameAfterStatus (l ++ [SpinEv.statusLine]) = true := by
  unfold noFrameAfterStatus
  have hall : ∀ x ∈ l, (fun e => !isStatus e) x = true := by
    intro x hx
    cases x with
    | frame => rfl
    | clearLine => rfl
    | statusLine => exact absurd hx h
  rw [dropWhile_append_of_all _ l _ hall]
  rfl

theorem spinInv_step (s s' : SpinnerState) (hinv : SpinInv s) (hstep : SpinStep s s') :
    SpinInv s' := by
  obtain ⟨h1, h2, h3, h4, h5, h6⟩ := hinv
  cases hstep with
  | loop_check hd hc hf =>
    refine ⟨h1, h2, ?_, h4, h5, h6⟩
    intro hld
    rw [show ({ s with checked := true } : SpinnerState).loopDone = s.loopDone from rfl,
      hd] at hld
    exact absurd hld (by decide)
  | loop_render hc =>
    have hnost : SpinEv.statusLine ∉ s.out := by
      intro hm
      have hpc := h4 hm
      have hld := h2 (by omega)
      rw [h3 hld] at hc
      exact absurd hc (by decide)
    refine ⟨h1, h2, fun _ => rfl, ?_, ?_, ?_⟩
    · intro hm
      rcases List.mem_append.mp hm with hm | hm
      · exact h4 hm
      · simp at hm
    · intro hle
      exact List.mem_append_left _ (h5 hle)
    · refine noFrameAfterStatus_of_not_mem _ ?_
      intro hm
      rcases List.mem_append.mp hm with hm | hm
      · exact hnost hm
      · simp at hm
  | loop_exit hd hc hf =>
    exact ⟨h1, fun _ => rfl, fun _ => hc, h4, h5, h6⟩
  | main_set hp =>
    refine ⟨fun _ => rfl, ?_, h3, ?_, ?_, h6⟩
    · intro hle
      rw [show ({ s with stopFlag := true, pc := 1 } : SpinnerState).pc = 1 from rfl] at hle
      omega
    · intro hm
      have := h4 hm
      rw [hp] at this
      omega
    · intro hle
      rw [show ({ s with stopFlag := true, pc := 1 } : SpinnerState).pc = 1 from rfl] at hle
      omega
  | main_join hp hld =>
    refine ⟨fun _ => h1 (by omega), fun _ => hld, h3, ?_, ?_, h6⟩
    · intro hm
      have := h4 hm
      rw [hp] at this
      omega
    · intro hle
      rw [show ({ s with pc := 2 } : SpinnerState).pc = 2 from rfl] at hle
      omega
  | main_clear hp =>
    have hnost : SpinEv.statusLine ∉ s.out := by
      intro hm
      have := h4 hm
      rw [hp] at this
      omega
    refine ⟨fun _ => h1 (by omega), fun _ => h2 (by omega), h3, ?_, ?_, ?_⟩
    · intro hm
      rcases List.mem_append.mp hm with hm | hm
      · exact absurd hm hnost
      · simp at hm
    · intro _
      exact List.mem_append_right _ (by simp)
    · refine noFrameAfterStatus_of_not_mem _ ?_
      intro hm
      rcases List.mem_append.mp hm with hm | hm
      · exact hnost hm
      · simp at hm
  | main_status hp =>
    have hnost : SpinEv.statusLine ∉ s.out := by
      intro hm
      have := h4 hm
      rw [hp] at this
      omega
    refine ⟨fun _ => h1 (by omega), fun _ => h2 (by omega), h3, fun _ => rfl, ?_, ?_⟩
    · intro _
      exact List.mem_append_left _ (h5 (by omega))
    · exact noFrameAfterStatus_append_status _ hnost

theorem spinInv_reach (s : SpinnerState) (h : SpinReach s) : SpinInv s := by
  induction h with
  | init =>
    refine ⟨?_, ?_, ?_, ?_, ?_, rfl⟩
    · intro h; exact absurd h (by decide)
    · intro h; exact absurd h (by decide)
    · intro h; exact absurd h (by decide)
    · intro h; exact absurd h (by decide)
    · intro h; exact absurd h (by decide)
  | step s s' hr hst ih => exact spinInv_step s s' ih hst

/-- C9: in every reachable state of the spinner machine, once `stop()` has
joined the rendering loop (`pc ≥ 2`) the loop thread has actually
terminated; once `stop()` has returned (`pc ≥ 3`) the rendered line has
been cleared; and the output stream never shows a frame redraw at or after
the final status line — so `succeed`/`fail`, which run `stop()` first,
always write the status line strictly after the last spinner frame, with no
interleaving. -/
theorem c9_stop_joins_before_status (s : SpinnerState) (h : SpinReach s) :
    (2 ≤ s.pc → s.loopDone = true) ∧
    (3 ≤ s.pc → SpinEv.clearLine ∈ s.out) ∧
    noFrameAfterStatus s.out = true := by
  obtain ⟨-, h2, -, -, h5, h6⟩ := spinInv_reach s h
  exact ⟨h2, h5, h6⟩

/-- A complete reachable run: one frame rendered, then stop/succeed. -/
def spinFinal : SpinnerState :=
  ⟨true, false, true, 4, [SpinEv.frame, SpinEv.clearLine, SpinEv.statusLine]⟩

theorem c9_witness :
    (2 ≤ spinFinal.pc → spinFinal.loopDone = true) ∧
    (3 ≤ spinFinal.pc → SpinEv.clearLine ∈ spinFinal.out) ∧
    noFrameAfterStatus spinFinal.out = true :=
  c9_stop_joins_before_status spinFinal
    (SpinReach.step _ _
      (SpinReach.step _ _
        (SpinReach.step _ _
          (SpinReach.step _ _
            (SpinReach.step _ _
              (SpinReach.step _ _
                (SpinReach.step _ _ SpinReach.init
                  (SpinStep.loop_check spinInit rfl rfl rfl))
                (SpinStep.loop_render _ rfl))
              (SpinStep.main_set _ rfl))
            (SpinStep.loop_exit _ rfl rfl rfl))
          (SpinStep.main_join _ rfl rfl))
        (SpinStep.main_clear _ rfl))
      (SpinStep.main_status _ rfl))
